import Mathlib

/-!
Verification development for the VRP genetic-algorithm fitness evaluation found
in `src/tests/simulate/test_genetic_algorithm_vrp.py`, together with a model of
the generational evolution engine described by the specification (the engine
module `fyords.simulate.genetic_algorithm` imported by the test is not part of
the source tree).

Floating-point numbers of the Python code are modelled as rationals; pandas
frames as lists of records; raised exceptions as `Except` errors.
-/

namespace PyordsVrp

/-- One demand record of the environment dataframe: external identifier
(`zipcode`), `weight` and `pallets`.  Latitude and longitude only feed the
distance-matrix construction and are never read by the fitness evaluator, so
they are not carried in the record. -/
structure DemandRecord where
  zipcode : Int
  weight : ℚ
  pallets : ℚ
deriving DecidableEq

/-- `envs.BasicEnvironment(df=demand_data, _dict=environment_dict)`: the demand
dataframe `df`, the `zip_lookup` table of `(zipcode, position)` rows and the
square `distance_matrix`. -/
structure Environment where
  df : List DemandRecord
  zip_lookup : List (Int × Nat)
  distance_matrix : List (List ℚ)
deriving DecidableEq

/-- Exceptions the evaluator can raise, keyed by the specification's taxonomy:
`lengthMismatch` is the pandas `ValueError` from assigning a column of the
wrong length, `dataError` the failed identifier lookup (`.values[0]` on an
empty selection), `indexError` an out-of-range distance-matrix access. -/
inductive EvalError where
  | lengthMismatch
  | dataError
  | indexError
deriving DecidableEq

deriving instance DecidableEq for Except

/-- Absolute value, as pandas `.abs()` computes it entrywise. -/
def ratAbs (q : ℚ) : ℚ := if q < 0 then -q else q

/-- A row of the decoded frame: the demand record together with its
`chromosomes` entry (the assigned route id). -/
abbrev Row := DemandRecord × Int

/-- `decode()`: copy the environment dataframe and attach the individual as the
`chromosomes` column (`data['chromosomes'] = individual`).  pandas raises when
the assigned column's length differs from the frame's length. -/
def decode (individual : List Int) (env : Environment) : Except EvalError (List Row) :=
  if individual.length = env.df.length then .ok (env.df.zip individual)
  else .error .lengthMismatch

/-- `max_weight = 45000` from the evaluator. -/
def max_weight : ℚ := 45000

/-- `max_pallets = 25` from the evaluator. -/
def max_pallets : ℚ := 25

/-- The distinct route ids occurring in the decoded frame, i.e. the group keys
of `decoded.groupby('chromosomes')`. -/
def routeIds (decoded : List Row) : List Int :=
  (decoded.map Prod.snd).dedup

/-- The rows of the decoded frame carrying route id `c`, in frame order. -/
def routeStops (decoded : List Row) (c : Int) : List Row :=
  decoded.filter fun r => decide (r.2 = c)

/-- `decoded.groupby('chromosomes')['weight'].sum()` at group `c`. -/
def routeWeight (decoded : List Row) (c : Int) : ℚ :=
  ((routeStops decoded c).map fun r => r.1.weight).sum

/-- `decoded.groupby('chromosomes')['pallets'].sum()` at group `c`. -/
def routePallets (decoded : List Row) (c : Int) : ℚ :=
  ((routeStops decoded c).map fun r => r.1.pallets).sum

/-- `weight_penalty = (max_weight - decoded.groupby('chromosomes')['weight'].sum()).abs().sum()`. -/
def weight_penalty (decoded : List Row) : ℚ :=
  ((routeIds decoded).map fun c => ratAbs (max_weight - routeWeight decoded c)).sum

/-- `pallet_penalty = (max_pallets - decoded.groupby('chromosomes')['pallets'].sum()).abs().sum()`. -/
def pallet_penalty (decoded : List Row) : ℚ :=
  ((routeIds decoded).map fun c => ratAbs (max_pallets - routePallets decoded c)).sum

/-- `lookup.loc[lookup['zipcode'] == z, 'position'].values[0]`: position of the
first `zip_lookup` row whose zipcode equals `z`; raises when the selection is
empty (unknown identifier). -/
def lookupPos (env : Environment) (z : Int) : Except EvalError Nat :=
  match env.zip_lookup.find? (fun p => decide (p.1 = z)) with
  | some p => .ok p.2
  | none => .error .dataError

/-- The two identifier lookups of `get_distance`: origin first, then
destination, each through `lookupPos`. -/
def lookupPair (env : Environment) (zo zd : Int) : Except EvalError (Nat × Nat) :=
  match lookupPos env zo with
  | .error e => .error e
  | .ok oi =>
    match lookupPos env zd with
    | .error e => .error e
    | .ok di => .ok (oi, di)

/-- Indexing one row of the distance matrix. -/
def rowAt (row : List ℚ) (j : Nat) : Except EvalError ℚ :=
  match row.get? j with
  | none => .error .indexError
  | some v => .ok v

/-- `environment._dict['distance_matrix'][origin_index][dest_index]`. -/
def matrixAt (env : Environment) (i j : Nat) : Except EvalError ℚ :=
  match env.distance_matrix.get? i with
  | none => .error .indexError
  | some row => rowAt row j

/-- `get_distance(x)` for one row `x` whose shifted predecessor is `prev`
(`none` models the `NaN` produced by `.shift()` on the first row; the zipcode
column itself is integer-valued, hence never null).  Returns `none` for the
`np.nan` result, which pandas' `.sum()` later skips.  `distValue` is the final
matrix access once both positions are resolved. -/
def distValue (env : Environment) (pr : Nat × Nat) : Except EvalError (Option ℚ) :=
  match matrixAt env pr.1 pr.2 with
  | .error e => .error e
  | .ok v => .ok (some v)

/-- `get_distance(x)` continued: see the doc comment above `distValue`. -/
def get_distance (env : Environment) (prev : Option Row) (x : Row) :
    Except EvalError (Option ℚ) :=
  match prev with
  | none => .ok none
  | some p =>
    if x.2 ≠ p.2 then .ok none
    else
      match lookupPair env p.1.zipcode x.1.zipcode with
      | .error e => .error e
      | .ok pr => distValue env pr

/-- The row-wise `apply(get_distance, axis=1)` followed by
`decoded.distance.sum()`: each row is paired with its predecessor (the
`.shift()` columns), `NaN` contributions are skipped, a raised exception
aborts. -/
def sumDistances (env : Environment) : Option Row → List Row → Except EvalError ℚ
  | _, [] => .ok 0
  | prev, x :: rest =>
    match get_distance env prev x with
    | .error e => .error e
    | .ok d =>
      match sumDistances env (some x) rest with
      | .error e => .error e
      | .ok s => .ok (d.getD 0 + s)

/-- The distinct route ids in ascending order: the group keys of the sorted
frame. -/
def sortedChroms (decoded : List Row) : List Int :=
  List.insertionSort (fun a b => a ≤ b) (routeIds decoded)

/-- `decoded.sort_values(by='chromosomes')`, modelled as a stable key sort:
rows are regrouped by ascending route id, rows of equal route id keeping their
frame order.  (pandas sorts with a deterministic comparison sort keyed on the
single `chromosomes` column; any key sort produces such a grouping, and the
stable one fixes the order inside each group.) -/
def sort_values (decoded : List Row) : List Row :=
  (sortedChroms decoded).flatMap (routeStops decoded)

/-- `fitness_func(individual, environment)`: decode, the two capacity
penalties, then the consecutive-stop distance penalty over the sorted frame. -/
def fitness_func (individual : List Int) (env : Environment) : Except EvalError ℚ :=
  match decode individual env with
  | .error e => .error e
  | .ok decoded =>
    match sumDistances env none (sort_values decoded) with
    | .error e => .error e
    | .ok dp => .ok (weight_penalty decoded + pallet_penalty decoded + dp)

/-! ### The evaluator as a state transformer

The Python evaluator works on mutable objects: the environment it receives and
the local frame `decoded`.  The state-passing embedding makes every write
explicit, so that the frame condition (the environment is never written) is a
statement about the code rather than about the ambient purity of Lean. -/

/-- The mutable state during one evaluator call: the environment object and the
evaluator-local frame (`decode`'s `data`, later `decoded`). -/
structure EvalState where
  env : Environment
  scratch : List Row
deriving DecidableEq

/-- `data = environment.df.copy(); data['chromosomes'] = individual`: the copy
and the new column are written to the local frame; the environment fields are
only read. -/
def decode_step (individual : List Int) (st : EvalState) : Except EvalError EvalState :=
  if individual.length = st.env.df.length then
    .ok { st with scratch := st.env.df.zip individual }
  else .error .lengthMismatch

/-- `decoded.sort_values(by='chromosomes', inplace=True)` together with the
shifted helper columns: an in-place update of the local frame. -/
def sort_step (st : EvalState) : EvalState :=
  { st with scratch := sort_values st.scratch }

/-- The score computed from the decoded state: the capacity penalties read the
frame before the in-place sort, the distance penalty after it. -/
def fitness_result (st1 : EvalState) : Except EvalError ℚ :=
  match sumDistances (sort_step st1).env none (sort_step st1).scratch with
  | .error e => .error e
  | .ok dp => .ok (weight_penalty st1.scratch + pallet_penalty st1.scratch + dp)

/-- The whole evaluator call as a state transformer: the returned score (or the
raised exception) plus the state left behind. -/
def fitness_func_run (individual : List Int) (st : EvalState) :
    Except EvalError ℚ × EvalState :=
  match decode_step individual st with
  | .error e => (.error e, st)
  | .ok st1 => (fitness_result st1, sort_step st1)

/-- The claimed per-route distance component: the consecutive-stop distance sum
of route `c`, read off the evaluator's own accumulation restricted to the
route's stops (`0` is never used when that accumulation succeeds). -/
def routeDistVal (env : Environment) (decoded : List Row) (c : Int) : ℚ :=
  match sumDistances env none (routeStops decoded c) with
  | .ok d => d
  | .error _ => 0

/-- The predecessor row that a traversal of `A` leaves behind, starting from
`prev`. -/
def afterPrev (prev : Option Row) (A : List Row) : Option Row :=
  match A.getLast? with
  | some x => some x
  | none => prev

/-! ### Evolution engine, modelled from the specification

The test imports `BasicGeneticAlgorithm` and `BasicEnvironment` from
`fyords.simulate.genetic_algorithm`, a module that is not part of the source
tree; everything below is modelled from the specification (§4.3, §4.4, §6, §9)
and carries no authority from source code. -/

/-- Modelled from the spec: the engine-facing configuration of §6 — the missing
`BasicGeneticAlgorithm` constructor arguments.  Rates are rationals in `[0,1]`;
the route-id domain is `[0, vehicleCount)`. -/
structure GAConfig where
  populationSize : Nat
  nGenerations : Nat
  elitismCount : Nat
  vehicleCount : Nat
  mutationRate : ℚ
  crossoverRate : ℚ
  tournamentK : Nat

/-- Modelled from the spec: the injectable, seedable random generator of §9,
here a linear congruential step on a `Nat` state. -/
def rngNext (s : Nat) : Nat × Nat :=
  let s1 := (s * 1103515245 + 12345) % 2147483648
  (s1, s1)

/-- A draw below `n` from the generator. -/
def randBelow (s : Nat) (n : Nat) : Nat × Nat :=
  let (v, s1) := rngNext s
  (v % n, s1)

/-- A Bernoulli event of probability `rate` from the generator. -/
def randEvent (s : Nat) (rate : ℚ) : Bool × Nat :=
  let (v, s1) := rngNext s
  (decide ((v : ℚ) < rate * 2147483648), s1)

/-- Modelled from the spec: independent per-locus mutation (§4.3); a hit
replaces the gene by a route id drawn from `[0, vehicleCount)`. -/
def mutateGenes (cfg : GAConfig) : List Int → Nat → List Int × Nat
  | [], s => ([], s)
  | g :: gs, s =>
    let hit := randEvent s cfg.mutationRate
    let gene :=
      if hit.1 then (((randBelow hit.2 cfg.vehicleCount).1 : Int),
        (randBelow hit.2 cfg.vehicleCount).2)
      else (g, hit.2)
    let rest := mutateGenes cfg gs gene.2
    (gene.1 :: rest.1, rest.2)

/-- Modelled from the spec: locus-wise uniform crossover (§4.3) — each child
gene comes from parent `a` or parent `b` with equal probability. -/
def crossGenes : List Int → List Int → Nat → List Int × Nat
  | [], _, s => ([], s)
  | a :: as, [], s => (a :: as, s)
  | a :: as, b :: bs, s =>
    let t := randEvent s (1 / 2)
    let rest := crossGenes as bs t.2
    ((if t.1 then a else b) :: rest.1, rest.2)

/-- Modelled from the spec: crossover is applied with probability
`crossoverRate`, otherwise one parent is cloned (§4.3). -/
def crossover (cfg : GAConfig) (a b : List Int) (s : Nat) : List Int × Nat :=
  let t := randEvent s cfg.crossoverRate
  if t.1 then crossGenes a b t.2 else (a, t.2)

/-- A uniformly sampled member of the population (`[]` only for an empty
population, which a validated engine never builds). -/
def pickRandom : List (List Int) → Nat → List Int × Nat
  | [], s => ([], s)
  | p :: rest, s =>
    let r := randBelow s (p :: rest).length
    (((p :: rest).get? r.1).getD p, r.2)

/-- Modelled from the spec: tournament selection (§4.3) — the best-scoring of
`k + 1` uniformly sampled candidates. -/
def tournament (f : List Int → ℚ) (pop : List (List Int)) :
    Nat → Nat → List Int × Nat
  | 0, s => pickRandom pop s
  | k + 1, s =>
    let c := pickRandom pop s
    let best := tournament f pop k c.2
    (if f c.1 ≤ f best.1 then c.1 else best.1, best.2)

/-- Insert a scored individual into a score-sorted list. -/
def insertScored (x : List Int × ℚ) : List (List Int × ℚ) → List (List Int × ℚ)
  | [] => [x]
  | y :: ys => if x.2 ≤ y.2 then x :: y :: ys else y :: insertScored x ys

/-- Sort scored individuals by ascending score (lower is better). -/
def sortScored : List (List Int × ℚ) → List (List Int × ℚ)
  | [] => []
  | x :: xs => insertScored x (sortScored xs)

/-- Modelled from the spec: one offspring — two tournament parents, crossover,
then mutation (§4.4 RUNNING). -/
def makeChild (cfg : GAConfig) (f : List Int → ℚ) (pop : List (List Int))
    (s : Nat) : List Int × Nat :=
  let p1 := tournament f pop cfg.tournamentK s
  let p2 := tournament f pop cfg.tournamentK p1.2
  let child := crossover cfg p1.1 p2.1 p2.2
  mutateGenes cfg child.1 child.2

/-- Modelled from the spec: offspring production repeated `m` times
(§4.4 RUNNING). -/
def fillOffspring (cfg : GAConfig) (f : List Int → ℚ) (pop : List (List Int)) :
    Nat → Nat → List (List Int) × Nat
  | 0, s => ([], s)
  | m + 1, s =>
    let child := makeChild cfg f pop s
    let rest := fillOffspring cfg f pop m child.2
    (child.1 :: rest.1, rest.2)

/-- Modelled from the spec: one generation step — score the population, copy
the top `elitismCount` individuals unchanged, fill the remainder with
offspring until the population again holds `populationSize` individuals
(§4.3 Elitism, §4.4 RUNNING). -/
def nextPopulation (cfg : GAConfig) (f : List Int → ℚ) (pop : List (List Int))
    (s : Nat) : List (List Int) × Nat :=
  let scored := pop.map fun i => (i, f i)
  let elites := ((sortScored scored).take cfg.elitismCount).map Prod.fst
  let off := fillOffspring cfg f pop (cfg.populationSize - elites.length) s
  (elites ++ off.1, off.2)

/-- Modelled from the spec: `m` perturbed copies of the seed individual
(randomized gene reassignment, §4.4 INITIALIZED). -/
def perturbedSeeds (cfg : GAConfig) (seed : List Int) : Nat → Nat → List (List Int) × Nat
  | 0, s => ([], s)
  | m + 1, s =>
    let c := mutateGenes cfg seed s
    let rest := perturbedSeeds cfg seed m c.2
    (c.1 :: rest.1, rest.2)

/-- Modelled from the spec: the initial population — the caller-supplied seed
plus `populationSize − 1` perturbed seeds (§4.4 INITIALIZED). -/
def initialPopulation (cfg : GAConfig) (seed : List Int) (s : Nat) :
    List (List Int) × Nat :=
  let rest := perturbedSeeds cfg seed (cfg.populationSize - 1) s
  (seed :: rest.1, rest.2)

/-- Modelled from the spec: the population (with generator state) entering
generation `g`. -/
def populationAt (cfg : GAConfig) (f : List Int → ℚ) (seed : List Int) (s0 : Nat) :
    Nat → List (List Int) × Nat
  | 0 => initialPopulation cfg seed s0
  | g + 1 =>
    nextPopulation cfg f (populationAt cfg f seed s0 g).1
      (populationAt cfg f seed s0 g).2

/-- The best (lowest) score of a population; `0` only for the empty population,
which a validated engine never builds. -/
def bestScore (f : List Int → ℚ) : List (List Int) → ℚ
  | [] => 0
  | i :: rest => rest.foldl (fun acc j => min acc (f j)) (f i)

/-- The best-scoring individual of a population. -/
def bestIndividual (f : List Int → ℚ) : List (List Int) → List Int
  | [] => []
  | i :: rest => rest.foldl (fun acc j => if f j < f acc then j else acc) i

/-- Modelled from the spec: the best-so-far score recorded after evaluating
generation `g` (the per-generation best-score trace, §4.4 RUNNING). -/
def bestSoFar (cfg : GAConfig) (f : List Int → ℚ) (seed : List Int) (s0 : Nat) :
    Nat → ℚ
  | 0 => bestScore f (populationAt cfg f seed s0 0).1
  | g + 1 =>
    min (bestSoFar cfg f seed s0 g) (bestScore f (populationAt cfg f seed s0 (g + 1)).1)

/-- Modelled from the spec: the best individual observed across generations
`0 .. g`. -/
def runBest (cfg : GAConfig) (f : List Int → ℚ) (seed : List Int) (s0 : Nat) :
    Nat → List Int
  | 0 => bestIndividual f (populationAt cfg f seed s0 0).1
  | g + 1 =>
    let prev := runBest cfg f seed s0 g
    let cur := bestIndividual f (populationAt cfg f seed s0 (g + 1)).1
    if f cur < f prev then cur else prev

/-- Modelled from the spec: `run()` — the best individual found once
`nGenerations` generations have executed (§4.4 TERMINATED). -/
def runGA (cfg : GAConfig) (f : List Int → ℚ) (seed : List Int) (s0 : Nat) : List Int :=
  runBest cfg f seed s0 cfg.nGenerations

/-! ### Concrete sample data for witnesses -/

/-- A small concrete environment: two demand records, their lookup rows and a
`2 × 2` distance matrix. -/
def envEx : Environment :=
  { df := [⟨1, 10, 2⟩, ⟨2, 20, 3⟩]
    zip_lookup := [(1, 0), (2, 1)]
    distance_matrix := [[0, 5], [5, 0]] }

/-- A small valid engine configuration. -/
def cfgEx : GAConfig :=
  { populationSize := 4
    nGenerations := 2
    elitismCount := 1
    vehicleCount := 3
    mutationRate := 1 / 20
    crossoverRate := 4 / 5
    tournamentK := 2 }

/-! ## Theorems -/

theorem ratAbs_eq_abs (q : ℚ) : ratAbs q = |q| := by
  unfold ratAbs
  rcases lt_or_le q 0 with h | h
  · rw [if_pos h, abs_of_neg h]
  · rw [if_neg (not_lt.mpr h), abs_of_nonneg h]

theorem ratAbs_nonneg (q : ℚ) : 0 ≤ ratAbs q := by
  rw [ratAbs_eq_abs]
  exact abs_nonneg q

/-- `lookupPos` raises a `DataError` exactly on identifiers absent from the
lookup table. -/
theorem lookupPos_error_iff (env : Environment) (z : Int) :
    lookupPos env z = .error .dataError ↔ z ∉ env.zip_lookup.map Prod.fst := by
  unfold lookupPos
  rcases h : env.zip_lookup.find? (fun p => decide (p.1 = z)) with _ | p <;>
    simp only [h]
  · constructor
    · intro _ hz
      rcases List.mem_map.mp hz with ⟨q, hq, hqz⟩
      simp only [List.find?_eq_none] at h
      have := h q hq
      simp only [decide_eq_true_eq] at this
      exact this hqz
    · intro _
      trivial
  · have hz : z ∈ env.zip_lookup.map Prod.fst := by
      refine List.mem_map.mpr ⟨p, List.mem_of_find?_eq_some h, ?_⟩
      have := List.find?_some h
      simpa using this
    simp [hz]

/-- With the identifier present, `lookupPos` succeeds. -/
theorem lookupPos_ok_of_mem (env : Environment) (z : Int)
    (hz : z ∈ env.zip_lookup.map Prod.fst) : ∃ i, lookupPos env z = .ok i := by
  unfold lookupPos
  rcases h : env.zip_lookup.find? (fun p => decide (p.1 = z)) with _ | p <;>
    simp only [h]
  · exfalso
    simp only [List.find?_eq_none] at h
    rcases List.mem_map.mp hz with ⟨q, hq, hqz⟩
    have := h q hq
    simp only [decide_eq_true_eq] at this
    exact this hqz
  · exact ⟨p.2, rfl⟩

/-- `lookupPos` either raises the `DataError` or succeeds. -/
theorem lookupPos_result (env : Environment) (z : Int) :
    lookupPos env z = .error .dataError ∨ ∃ i, lookupPos env z = .ok i := by
  unfold lookupPos
  rcases h : env.zip_lookup.find? (fun p => decide (p.1 = z)) with _ | p
  · exact Or.inl (by rw [h])
  · exact Or.inr ⟨p.2, by rw [h]⟩

/-- A failed `lookupPos` always raises the `DataError`. -/
theorem lookupPos_error_eq (env : Environment) (z : Int) (e : EvalError)
    (h : lookupPos env z = .error e) : e = .dataError := by
  rcases lookupPos_result env z with hc | ⟨i, hc⟩ <;> rw [h] at hc
  · cases hc
    rfl
  · cases hc

/-- `lookupPair` either raises the `DataError` or succeeds. -/
theorem lookupPair_result (env : Environment) (zo zd : Int) :
    lookupPair env zo zd = .error .dataError ∨ ∃ pr, lookupPair env zo zd = .ok pr := by
  unfold lookupPair
  rcases h1 : lookupPos env zo with e1 | oi
  · have he : e1 = .dataError := lookupPos_error_eq env zo e1 h1
    subst he
    exact Or.inl rfl
  · rcases h2 : lookupPos env zd with e2 | di
    · have he : e2 = .dataError := lookupPos_error_eq env zd e2 h2
      subst he
      exact Or.inl rfl
    · exact Or.inr ⟨(oi, di), rfl⟩

/-- A failed `lookupPair` always raises the `DataError`. -/
theorem lookupPair_error_eq (env : Environment) (zo zd : Int) (e : EvalError)
    (h : lookupPair env zo zd = .error e) : e = .dataError := by
  rcases lookupPair_result env zo zd with hc | ⟨pr, hc⟩ <;> rw [h] at hc
  · cases hc
    rfl
  · cases hc

/-- `rowAt` either raises the `IndexError` or succeeds. -/
theorem rowAt_result (row : List ℚ) (j : Nat) :
    rowAt row j = .error .indexError ∨ ∃ v, rowAt row j = .ok v := by
  unfold rowAt
  rcases h : row.get? j with _ | v
  · exact Or.inl rfl
  · exact Or.inr ⟨v, rfl⟩

/-- `matrixAt` either raises the `IndexError` or succeeds. -/
theorem matrixAt_result (env : Environment) (i j : Nat) :
    matrixAt env i j = .error .indexError ∨ ∃ v, matrixAt env i j = .ok v := by
  unfold matrixAt
  rcases h1 : env.distance_matrix.get? i with _ | row
  · exact Or.inl rfl
  · exact rowAt_result row j

/-- A failed `matrixAt` always raises the `IndexError`. -/
theorem matrixAt_error_eq (env : Environment) (i j : Nat) (e : EvalError)
    (h : matrixAt env i j = .error e) : e = .indexError := by
  rcases matrixAt_result env i j with hc | ⟨v, hc⟩ <;> rw [h] at hc
  · cases hc
    rfl
  · cases hc

/-- `distValue` either succeeds or raises the `IndexError`. -/
theorem distValue_result (env : Environment) (pr : Nat × Nat) :
    (∃ d, distValue env pr = .ok d) ∨
    distValue env pr = .error .dataError ∨
    distValue env pr = .error .indexError := by
  unfold distValue
  rcases hm : matrixAt env pr.1 pr.2 with e2 | v
  · have he : e2 = .indexError := matrixAt_error_eq env _ _ _ hm
    subst he
    exact Or.inr (Or.inr rfl)
  · exact Or.inl ⟨some v, rfl⟩

/-- `get_distance` either succeeds or raises a lookup/indexing error. -/
theorem get_distance_result (env : Environment) (prev : Option Row) (x : Row) :
    (∃ d, get_distance env prev x = .ok d) ∨
    get_distance env prev x = .error .dataError ∨
    get_distance env prev x = .error .indexError := by
  rcases prev with _ | p
  · exact Or.inl ⟨none, rfl⟩
  · simp only [get_distance]
    by_cases hc : x.2 ≠ p.2
    · rw [if_pos hc]
      exact Or.inl ⟨none, rfl⟩
    · rw [if_neg hc]
      rcases hl : lookupPair env p.1.zipcode x.1.zipcode with e1 | pr
      · have he : e1 = .dataError := lookupPair_error_eq env _ _ _ hl
        subst he
        exact Or.inr (Or.inl rfl)
      · exact distValue_result env pr

/-- `get_distance` never raises the length-mismatch error. -/
theorem get_distance_error_ne_length (env : Environment) (prev : Option Row)
    (x : Row) (e : EvalError) (h : get_distance env prev x = .error e) :
    e ≠ .lengthMismatch := by
  rcases get_distance_result env prev x with ⟨d, hc⟩ | hc | hc <;> rw [h] at hc
  · cases hc
  · cases hc
    intro hn
    cases hn
  · cases hc
    intro hn
    cases hn

/-- `sumDistances` never raises the length-mismatch error. -/
theorem sumDistances_error_ne_length (env : Environment) (prev : Option Row)
    (l : List Row) (e : EvalError) (h : sumDistances env prev l = .error e) :
    e ≠ .lengthMismatch := by
  induction l generalizing prev e with
  | nil => cases h
  | cons x rest ih =>
    unfold sumDistances at h
    rcases hg : get_distance env prev x with e1 | d <;> simp only [hg] at h
    · cases h
      exact get_distance_error_ne_length env prev x _ hg
    · rcases hs : sumDistances env (some x) rest with e2 | s2 <;> simp only [hs] at h
      · cases h
        exact ih _ _ hs
      · cases h

/-- A boundary whose predecessor belongs to a different route contributes
nothing: the accumulation proceeds as if the list were entered fresh. -/
theorem sumDistances_fresh (env : Environment) (p : Row) (B : List Row)
    (h : ∀ b, B.head? = some b → b.2 ≠ p.2) :
    sumDistances env (some p) B = sumDistances env none B := by
  cases B with
  | nil => rfl
  | cons b rest =>
    have hb : b.2 ≠ p.2 := h b rfl
    have hg : get_distance env (some p) b = .ok none := by
      simp only [get_distance]
      rw [if_pos hb]
    have hg0 : get_distance env none b = .ok none := rfl
    simp only [sumDistances, hg, hg0]

theorem fitness_func_run_env (individual : List Int) (st : EvalState) :
    ((fitness_func_run individual st).2).env = st.env := by
  unfold fitness_func_run
  rcases hd : decode_step individual st with e | st1
  · rfl
  · have h1 : st1.env = st.env := by
      unfold decode_step at hd
      split at hd
      · cases hd
        rfl
      · cases hd
    exact h1

theorem fitness_func_run_fst (individual : List Int) (st : EvalState) :
    (fitness_func_run individual st).1 = fitness_func individual st.env := by
  unfold fitness_func_run fitness_func decode_step decode
  by_cases hlen : individual.length = st.env.df.length
  · rw [if_pos hlen, if_pos hlen]
    show fitness_result { st with scratch := st.env.df.zip individual } = _
    unfold fitness_result
    simp only [sort_step]
  · rw [if_neg hlen, if_neg hlen]

/-! ### Decomposition of the distance accumulation -/

/-- Inversion for a propagate-or-continue match on an `Except` value. -/
theorem except_match_inv {α β : Type} (X : Except EvalError α)
    (F : α → Except EvalError β) (s : β)
    (h : (match X with
          | .error e => (.error e : Except EvalError β)
          | .ok a => F a) = .ok s) :
    ∃ a, X = .ok a ∧ F a = .ok s := by
  rcases X with e | a
  · cases h
  · exact ⟨a, rfl, h⟩

/-- Inversion for a default-or-continue match on an `Option` value. -/
theorem option_match_inv {α β : Type} (X : Option α) (E : Except EvalError β)
    (F : α → Except EvalError β) (v : β)
    (h : (match X with | none => E | some a => F a) = .ok v)
    (hE : ∀ w, E ≠ .ok w) :
    ∃ a, X = some a ∧ F a = .ok v := by
  rcases X with _ | a
  · exact absurd h (hE v)
  · exact ⟨a, rfl, h⟩

/-- Inversion of a two-step accumulation that ends in `.ok`. -/
theorem match_ok_inv (X Y : Except EvalError ℚ) (f : ℚ → ℚ → ℚ) (s : ℚ)
    (h : (match X with
          | .error e => (.error e : Except EvalError ℚ)
          | .ok a =>
            match Y with
            | .error e => .error e
            | .ok b => .ok (f a b)) = .ok s) :
    ∃ a b, X = .ok a ∧ Y = .ok b ∧ s = f a b := by
  rcases X with e | a
  · cases h
  · rcases Y with e | b
    · cases h
    · cases h
      exact ⟨a, b, rfl, rfl, rfl⟩

/-- `sumDistances` on a nonempty list, as a definitional equation. -/
theorem sumDistances_cons (env : Environment) (prev : Option Row) (x : Row)
    (rest : List Row) :
    sumDistances env prev (x :: rest) =
      match get_distance env prev x with
      | .error e => .error e
      | .ok d =>
        match sumDistances env (some x) rest with
        | .error e => .error e
        | .ok s => .ok (d.getD 0 + s) := rfl

theorem afterPrev_nil (prev : Option Row) : afterPrev prev [] = prev := rfl

theorem afterPrev_cons (prev : Option Row) (x : Row) (A : List Row) :
    afterPrev prev (x :: A) = afterPrev (some x) A := by
  cases A with
  | nil => rfl
  | cons y A2 =>
    unfold afterPrev
    rw [List.getLast?_cons_cons]
    rcases h : (y :: A2).getLast? with _ | z
    · exact absurd (List.getLast?_eq_none_iff.mp h) (List.cons_ne_nil y A2)
    · rfl

/-- The chained accumulation over `A ++ B` decomposes: accumulate `A` from
`prev`, then `B` from the last row of `A` (or from `prev` when `A` is
empty). -/
theorem sumDistances_append (env : Environment) :
    ∀ (A : List Row) (prev : Option Row) (B : List Row),
    sumDistances env prev (A ++ B) =
      match sumDistances env prev A with
      | .error e => .error e
      | .ok a =>
        match sumDistances env (afterPrev prev A) B with
        | .error e => .error e
        | .ok b => .ok (a + b) := by
  intro A
  induction A with
  | nil =>
    intro prev B
    show sumDistances env prev B =
      match sumDistances env prev B with
      | .error e => .error e
      | .ok b => .ok (0 + b)
    rcases hB : sumDistances env prev B with e | b
    · rfl
    · show Except.ok b = .ok (0 + b)
      rw [zero_add]
  | cons x A2 ih =>
    intro prev B
    rw [List.cons_append, sumDistances_cons, sumDistances_cons, ih (some x) B,
      afterPrev_cons]
    generalize get_distance env prev x = gd
    rcases gd with e | d
    · rfl
    · generalize sumDistances env (some x) A2 = sa
      rcases sa with e | a
      · rfl
      · generalize sumDistances env (afterPrev (some x) A2) B = sb
        rcases sb with e | b
        · rfl
        · show Except.ok (d.getD 0 + (a + b)) = .ok (d.getD 0 + a + b)
          rw [add_assoc]

/-- The last element of a list is an element. -/
theorem mem_of_getLast2 {l : List Row} {y : Row} (h : l.getLast? = some y) :
    y ∈ l := by
  induction l with
  | nil => cases h
  | cons x l2 ih =>
    cases l2 with
    | nil =>
      cases h
      exact List.mem_singleton.mpr rfl
    | cons z l3 =>
      rw [List.getLast?_cons_cons] at h
      exact List.mem_cons_of_mem x (ih h)

/-- Entering a group of rows all carrying id `c` from a predecessor whose id is
not `c` is the same as entering it fresh. -/
theorem sumDistances_group_fresh (env : Environment) (G : Int → List Row) (c : Int)
    (prev : Option Row)
    (hG : ∀ r ∈ G c, r.2 = c)
    (hprev : ∀ p, prev = some p → p.2 ≠ c) :
    sumDistances env prev (G c) = sumDistances env none (G c) := by
  rcases prev with _ | p
  · rfl
  · refine sumDistances_fresh env p (G c) fun b hb => ?_
    rw [hG b (List.mem_of_mem_head? hb)]
    exact Ne.symm (hprev p rfl)

/-- A nonempty traversed group leaves one of its own rows as predecessor. -/
theorem afterPrev_group (prev : Option Row) (A : List Row) (hA : A ≠ []) :
    ∃ y, afterPrev prev A = some y ∧ y ∈ A := by
  rcases h : A.getLast? with _ | y
  · exact absurd (List.getLast?_eq_none_iff.mp h) hA
  · refine ⟨y, ?_, mem_of_getLast2 h⟩
    unfold afterPrev
    rw [h]

/-- If the accumulation over a concatenation of route groups succeeds, the
accumulation over each single group succeeds. -/
theorem sumDistances_flatMap_ok (env : Environment) (G : Int → List Row) :
    ∀ (cs : List Int) (prev : Option Row) (s : ℚ),
    (∀ c ∈ cs, ∀ r ∈ G c, r.2 = c) →
    (∀ c ∈ cs, G c ≠ []) →
    cs.Nodup →
    (∀ p, prev = some p → p.2 ∉ cs) →
    sumDistances env prev (cs.flatMap G) = .ok s →
    ∀ c2 ∈ cs, ∃ dc, sumDistances env none (G c2) = .ok dc := by
  intro cs
  induction cs with
  | nil =>
    intro prev s _ _ _ _ _ c2 hc2
    cases hc2
  | cons c cs2 ih =>
    intro prev s hG hne hnd hprev hsum c2 hc2
    rw [List.flatMap_cons, sumDistances_append] at hsum
    obtain ⟨a, b, ha, hb, _⟩ := match_ok_inv _ _ (· + ·) s hsum
    rcases List.mem_cons.mp hc2 with hc2 | hc2
    · subst hc2
      refine ⟨a, ?_⟩
      rw [← sumDistances_group_fresh env G c2 prev (hG c2 (List.mem_cons_self c2 cs2))
        (fun p hp hpc => hprev p hp (hpc ▸ List.mem_cons_self c2 cs2))]
      exact ha
    · obtain ⟨y, hy, hymem⟩ :=
        afterPrev_group prev (G c) (hne c (List.mem_cons_self c cs2))
      have hy2 : y.2 = c := hG c (List.mem_cons_self c cs2) y hymem
      rw [hy] at hb
      refine ih (some y) b
        (fun c3 hc3 r hr => hG c3 (List.mem_cons_of_mem c hc3) r hr)
        (fun c3 hc3 => hne c3 (List.mem_cons_of_mem c hc3)) hnd.of_cons ?_ hb c2 hc2
      intro p hp
      cases hp
      rw [hy2]
      exact (List.nodup_cons.mp hnd).1

/-- The accumulation over a concatenation of route groups is the sum of the
per-group accumulations: every boundary between two groups carries distinct
route ids and contributes nothing. -/
theorem sumDistances_flatMap_sum (env : Environment) (G : Int → List Row)
    (d : Int → ℚ) :
    ∀ (cs : List Int) (prev : Option Row),
    (∀ c ∈ cs, ∀ r ∈ G c, r.2 = c) →
    (∀ c ∈ cs, G c ≠ []) →
    cs.Nodup →
    (∀ p, prev = some p → p.2 ∉ cs) →
    (∀ c ∈ cs, sumDistances env none (G c) = .ok (d c)) →
    sumDistances env prev (cs.flatMap G) = .ok ((cs.map d).sum) := by
  intro cs
  induction cs with
  | nil =>
    intro prev _ _ _ _ _
    rfl
  | cons c cs2 ih =>
    intro prev hG hne hnd hprev hok
    rw [List.flatMap_cons, sumDistances_append]
    have h1 : sumDistances env prev (G c) = .ok (d c) := by
      rw [sumDistances_group_fresh env G c prev (hG c (List.mem_cons_self c cs2))
        (fun p hp hpc => hprev p hp (hpc ▸ List.mem_cons_self c cs2))]
      exact hok c (List.mem_cons_self c cs2)
    obtain ⟨y, hy, hymem⟩ :=
      afterPrev_group prev (G c) (hne c (List.mem_cons_self c cs2))
    have hy2 : y.2 = c := hG c (List.mem_cons_self c cs2) y hymem
    have h2 : sumDistances env (afterPrev prev (G c)) (cs2.flatMap G) =
        .ok ((cs2.map d).sum) := by
      rw [hy]
      refine ih (some y)
        (fun c2 hc2 r hr => hG c2 (List.mem_cons_of_mem c hc2) r hr)
        (fun c2 hc2 => hne c2 (List.mem_cons_of_mem c hc2)) hnd.of_cons ?_
        (fun c2 hc2 => hok c2 (List.mem_cons_of_mem c hc2))
      intro p hp
      cases hp
      rw [hy2]
      exact (List.nodup_cons.mp hnd).1
    rw [h1, h2]
    show Except.ok (d c + (cs2.map d).sum) = .ok ((List.map d (c :: cs2)).sum)
    rw [List.map_cons, List.sum_cons]

/-- Every row selected for route `c` carries route id `c`. -/
theorem routeStops_chrom (decoded : List Row) (c : Int) :
    ∀ r ∈ routeStops decoded c, r.2 = c := by
  intro r hr
  exact of_decide_eq_true (List.mem_filter.mp hr).2

/-- Every distinct route id selects a nonempty group. -/
theorem routeStops_ne_nil (decoded : List Row) (c : Int)
    (hc : c ∈ routeIds decoded) : routeStops decoded c ≠ [] := by
  unfold routeIds at hc
  rcases List.mem_map.mp (List.mem_dedup.mp hc) with ⟨r, hr, hrc⟩
  exact List.ne_nil_of_mem (List.mem_filter.mpr ⟨hr, decide_eq_true hrc⟩)

/-- The ascending group keys are a permutation of the distinct route ids. -/
theorem sortedChroms_perm (decoded : List Row) :
    (sortedChroms decoded).Perm (routeIds decoded) :=
  List.perm_insertionSort _ _

theorem sortedChroms_nodup (decoded : List Row) : (sortedChroms decoded).Nodup :=
  ((sortedChroms_perm decoded).nodup_iff).mpr (List.nodup_dedup _)

/-- Inversion of a successful evaluator call. -/
theorem fitness_func_ok_inv (individual : List Int) (env : Environment) (s : ℚ)
    (h : fitness_func individual env = .ok s) :
    ∃ decoded dp, decode individual env = .ok decoded ∧
      sumDistances env none (sort_values decoded) = .ok dp ∧
      s = weight_penalty decoded + pallet_penalty decoded + dp := by
  unfold fitness_func at h
  split at h
  · cases h
  · split at h
    · cases h
    · cases h
      exact ⟨_, _, by assumption, by assumption, rfl⟩

/-! ## Claim theorems -/

/-- C3: in the fitness evaluator's distance component, a distance is added only
for a pair of consecutive records (after sorting) whose route ids are equal —
a consecutive pair with differing route ids yields the `NaN` marker and
contributes exactly zero to the total: the accumulation over the tail equals
the accumulation with no predecessor at all, neither a penalty nor a bonus. -/
theorem claim_C3 (env : Environment) (p x : Row) (rest : List Row)
    (h : p.2 ≠ x.2) :
    get_distance env (some p) x = .ok none ∧
    sumDistances env (some p) (x :: rest) = sumDistances env none (x :: rest) := by
  have hg : get_distance env (some p) x = .ok none := by
    simp only [get_distance]
    rw [if_pos (Ne.symm h)]
  refine ⟨hg, ?_⟩
  refine sumDistances_fresh env p (x :: rest) fun b hb => ?_
  cases hb
  exact Ne.symm h

theorem claim_C3_witness :
    get_distance envEx (some (⟨1, 10, 2⟩, 0)) (⟨2, 20, 3⟩, 1) = .ok none ∧
    sumDistances envEx (some (⟨1, 10, 2⟩, 0)) [(⟨2, 20, 3⟩, 1)] =
      sumDistances envEx none [(⟨2, 20, 3⟩, 1)] :=
  claim_C3 envEx (⟨1, 10, 2⟩, 0) (⟨2, 20, 3⟩, 1) [] (by decide)

/-- C4: the fitness evaluator is deterministic — calling it again with the same
individual on the state the first call left behind returns the same score. -/
theorem claim_C4 (individual : List Int) (st : EvalState) :
    (fitness_func_run individual ((fitness_func_run individual st).2)).1 =
      (fitness_func_run individual st).1 := by
  rw [fitness_func_run_fst, fitness_func_run_fst, fitness_func_run_env]

/-- C6: the evaluator is side-effect-free with respect to the environment —
after it returns, the environment's demand records, lookup table and distance
matrix are unchanged (evaluation works on a copy of the demand data). -/
theorem claim_C6 (individual : List Int) (st : EvalState) :
    ((fitness_func_run individual st).2).env.df = st.env.df ∧
    ((fitness_func_run individual st).2).env.zip_lookup = st.env.zip_lookup ∧
    ((fitness_func_run individual st).2).env.distance_matrix =
      st.env.distance_matrix := by
  rw [fitness_func_run_env]
  exact ⟨rfl, rfl, rfl⟩

/-- C7: a distance lookup between two external identifiers fails with a
`DataError` exactly when either identifier is absent from the id-to-position
mapping; with both identifiers present the lookup succeeds. -/
theorem claim_C7 (env : Environment) (zo zd : Int) :
    (lookupPair env zo zd = .error .dataError ↔
      zo ∉ env.zip_lookup.map Prod.fst ∨ zd ∉ env.zip_lookup.map Prod.fst) ∧
    (zo ∈ env.zip_lookup.map Prod.fst ∧ zd ∈ env.zip_lookup.map Prod.fst →
      ∃ oi di, lookupPair env zo zd = .ok (oi, di)) := by
  have hsucc : zo ∈ env.zip_lookup.map Prod.fst → zd ∈ env.zip_lookup.map Prod.fst →
      ∃ oi di, lookupPair env zo zd = .ok (oi, di) := by
    intro h1 h2
    rcases lookupPos_ok_of_mem env zo h1 with ⟨oi, ho⟩
    rcases lookupPos_ok_of_mem env zd h2 with ⟨di, hd⟩
    refine ⟨oi, di, ?_⟩
    unfold lookupPair
    rw [ho, hd]
  constructor
  · constructor
    · intro h
      by_contra hc
      push_neg at hc
      rcases hsucc hc.1 hc.2 with ⟨oi, di, hok⟩
      rw [hok] at h
      cases h
    · intro h
      unfold lookupPair
      rcases h with h | h
      · rw [(lookupPos_error_iff env zo).mpr h]
      · rcases ho : lookupPos env zo with e1 | oi
        · have he : e1 = .dataError := lookupPos_error_eq env zo e1 ho
          subst he
          rfl
        · rw [(lookupPos_error_iff env zd).mpr h]
  · intro h
    exact hsucc h.1 h.2

theorem claim_C7_witness :
    lookupPair envEx 1 3 = .error .dataError ∧
    ∃ oi di, lookupPair envEx 1 2 = .ok (oi, di) :=
  ⟨(claim_C7 envEx 1 3).1.mpr (Or.inr (by decide)),
    (claim_C7 envEx 1 2).2 ⟨by decide, by decide⟩⟩

/-- With matching lengths, the evaluator reduces to the distance accumulation
over the sorted decoded frame plus the two capacity penalties. -/
theorem fitness_func_spec (individual : List Int) (env : Environment)
    (h : individual.length = env.df.length) :
    fitness_func individual env =
      match sumDistances env none (sort_values (env.df.zip individual)) with
      | .error e => .error e
      | .ok dp => .ok (weight_penalty (env.df.zip individual) +
          pallet_penalty (env.df.zip individual) + dp) := by
  unfold fitness_func decode
  rw [if_pos h]

/-- A result built by the evaluator's final step is never the length-mismatch
error when the accumulation itself never raises it. -/
theorem match_ne_length (X : Except EvalError ℚ) (W : ℚ → ℚ)
    (hX : ∀ e, X = .error e → e ≠ .lengthMismatch) :
    (match X with
      | .error e => (.error e : Except EvalError ℚ)
      | .ok dp => .ok (W dp)) ≠ .error .lengthMismatch := by
  rcases X with e | dp
  · intro hcon
    cases hcon
    exact hX _ rfl rfl
  · intro hcon
    cases hcon

/-- C10: the fitness evaluator completes without raising only when the
individual's length equals the number of demand records; when the lengths
differ the column assignment in `decode` raises, and with matching lengths
that error branch is never reached. -/
theorem claim_C10 (individual : List Int) (env : Environment) :
    (individual.length ≠ env.df.length →
      fitness_func individual env = .error .lengthMismatch) ∧
    (individual.length = env.df.length →
      decode individual env = .ok (env.df.zip individual) ∧
      fitness_func individual env ≠ .error .lengthMismatch) := by
  constructor
  · intro hne
    unfold fitness_func decode
    rw [if_neg hne]
  · intro heq
    have hdec : decode individual env = .ok (env.df.zip individual) := by
      unfold decode
      rw [if_pos heq]
    refine ⟨hdec, ?_⟩
    rw [fitness_func_spec individual env heq]
    exact match_ne_length _ _ fun e he =>
      sumDistances_error_ne_length env none (sort_values (env.df.zip individual)) e he

theorem claim_C10_witness :
    fitness_func [0] envEx = .error .lengthMismatch ∧
    decode [0, 1] envEx = .ok (envEx.df.zip [0, 1]) ∧
    fitness_func [0, 1] envEx ≠ .error .lengthMismatch :=
  ⟨(claim_C10 [0] envEx).1 (by decide),
    ((claim_C10 [0, 1] envEx).2 (by decide)).1,
    ((claim_C10 [0, 1] envEx).2 (by decide)).2⟩

/-- C1: whenever the fitness evaluator returns a score, the score equals the
sum of three components: over each distinct route id of the individual, the
absolute deviation of the route's summed weight from `max_weight`, plus the
absolute deviation of the route's summed pallet count from `max_pallets`, plus
the sum of distances between consecutive stops within that route. -/
theorem claim_C1 (individual : List Int) (env : Environment) (s : ℚ)
    (hok : fitness_func individual env = .ok s) :
    ∃ decoded : List Row,
      decode individual env = .ok decoded ∧
      decoded.map Prod.snd = individual ∧
      (∀ c ∈ routeIds decoded, ∃ dc,
        sumDistances env none (routeStops decoded c) = .ok dc) ∧
      s = weight_penalty decoded + pallet_penalty decoded +
        ((routeIds decoded).map (routeDistVal env decoded)).sum := by
  obtain ⟨decoded, dp, hdec, hdp, hs⟩ := fitness_func_ok_inv individual env s hok
  have hmap : decoded.map Prod.snd = individual := by
    unfold decode at hdec
    split at hdec
    · cases hdec
      rename_i hlen
      exact List.map_snd_zip _ _ hlen.le
    · cases hdec
  have hG : ∀ c ∈ sortedChroms decoded, ∀ r ∈ routeStops decoded c, r.2 = c :=
    fun c _ r hr => routeStops_chrom decoded c r hr
  have hmem : ∀ c : Int, c ∈ sortedChroms decoded ↔ c ∈ routeIds decoded :=
    fun c => (sortedChroms_perm decoded).mem_iff
  have hne : ∀ c ∈ sortedChroms decoded, routeStops decoded c ≠ [] :=
    fun c hc => routeStops_ne_nil decoded c ((hmem c).mp hc)
  have hnd := sortedChroms_nodup decoded
  have hok2 : ∀ c ∈ sortedChroms decoded, ∃ dc,
      sumDistances env none (routeStops decoded c) = .ok dc :=
    sumDistances_flatMap_ok env (routeStops decoded) (sortedChroms decoded) none dp
      hG hne hnd (fun p hp => by cases hp) hdp
  have hroutes : ∀ c ∈ routeIds decoded, ∃ dc,
      sumDistances env none (routeStops decoded c) = .ok dc :=
    fun c hc => hok2 c ((hmem c).mpr hc)
  refine ⟨decoded, hdec, hmap, hroutes, ?_⟩
  have hd : ∀ c ∈ sortedChroms decoded,
      sumDistances env none (routeStops decoded c) =
        .ok (routeDistVal env decoded c) := by
    intro c hc
    rcases hok2 c hc with ⟨dc, hdc⟩
    rw [hdc]
    unfold routeDistVal
    rw [hdc]
  have hsum2 : sumDistances env none (sort_values decoded) =
      .ok (((sortedChroms decoded).map (routeDistVal env decoded)).sum) :=
    sumDistances_flatMap_sum env (routeStops decoded) (routeDistVal env decoded)
      (sortedChroms decoded) none hG hne hnd (fun p hp => by cases hp) hd
  rw [hdp] at hsum2
  have hdp2 : dp = ((sortedChroms decoded).map (routeDistVal env decoded)).sum :=
    Except.ok.inj hsum2
  have hperm : ((sortedChroms decoded).map (routeDistVal env decoded)).sum =
      ((routeIds decoded).map (routeDistVal env decoded)).sum :=
    ((sortedChroms_perm decoded).map (routeDistVal env decoded)).sum_eq
  rw [hs, hdp2, hperm]

unseal Rat.add Rat.sub Rat.mul Rat.inv in
theorem claim_C1_witness :
    ∃ decoded : List Row,
      decode [0, 0] envEx = .ok decoded ∧
      decoded.map Prod.snd = [0, 0] ∧
      (∀ c ∈ routeIds decoded, ∃ dc,
        sumDistances envEx none (routeStops decoded c) = .ok dc) ∧
      (44995 : ℚ) = weight_penalty decoded + pallet_penalty decoded +
        ((routeIds decoded).map (routeDistVal envEx decoded)).sum :=
  claim_C1 [0, 0] envEx 44995 (by decide)

/-- The weight penalty, a sum of absolute values, is non-negative. -/
theorem weight_penalty_nonneg (decoded : List Row) : 0 ≤ weight_penalty decoded := by
  refine List.sum_nonneg ?_
  intro x hx
  rcases List.mem_map.mp hx with ⟨c, _, hc⟩
  rw [← hc]
  exact ratAbs_nonneg _

/-- The pallet penalty, a sum of absolute values, is non-negative. -/
theorem pallet_penalty_nonneg (decoded : List Row) : 0 ≤ pallet_penalty decoded := by
  refine List.sum_nonneg ?_
  intro x hx
  rcases List.mem_map.mp hx with ⟨c, _, hc⟩
  rw [← hc]
  exact ratAbs_nonneg _

/-- A successful row access returns a member of the row. -/
theorem rowAt_ok_mem (row : List ℚ) (j : Nat) (v : ℚ) (h : rowAt row j = .ok v) :
    v ∈ row := by
  unfold rowAt at h
  split at h
  · cases h
  · cases h
    rename_i w hw
    exact List.get?_mem hw

/-- A successful matrix access returns an entry of the matrix. -/
theorem matrixAt_ok_mem (env : Environment) (i j : Nat) (v : ℚ)
    (h : matrixAt env i j = .ok v) :
    ∃ row ∈ env.distance_matrix, v ∈ row := by
  unfold matrixAt at h
  split at h
  · cases h
  · rename_i row hrow
    exact ⟨row, List.get?_mem hrow, rowAt_ok_mem row j v h⟩

/-- With a non-negative distance matrix, every row's distance contribution is
non-negative. -/
theorem get_distance_ok_nonneg (env : Environment)
    (hmat : ∀ row ∈ env.distance_matrix, ∀ v ∈ row, 0 ≤ v)
    (prev : Option Row) (x : Row) (d : Option ℚ)
    (h : get_distance env prev x = .ok d) : 0 ≤ d.getD 0 := by
  rcases prev with _ | p
  · cases h
    exact le_refl 0
  · simp only [get_distance] at h
    split at h
    · cases h
      exact le_refl 0
    · split at h
      · cases h
      · rename_i pr hpr
        unfold distValue at h
        split at h
        · cases h
        · rename_i v hv
          cases h
          obtain ⟨row, hrow, hvr⟩ := matrixAt_ok_mem env pr.1 pr.2 v hv
          exact hmat row hrow v hvr

/-- With a non-negative distance matrix, the accumulated distance sum is
non-negative. -/
theorem sumDistances_nonneg (env : Environment)
    (hmat : ∀ row ∈ env.distance_matrix, ∀ v ∈ row, 0 ≤ v) :
    ∀ (l : List Row) (prev : Option Row) (s : ℚ),
    sumDistances env prev l = .ok s → 0 ≤ s := by
  intro l
  induction l with
  | nil =>
    intro prev s h
    cases h
    exact le_refl 0
  | cons x rest ih =>
    intro prev s h
    rw [sumDistances_cons] at h
    split at h
    · cases h
    · split at h
      · cases h
      · cases h
        refine add_nonneg (get_distance_ok_nonneg env hmat prev x _ (by assumption))
          (ih (some x) _ (by assumption))

/-- C5: the score returned by the fitness evaluator is non-negative (for
environments whose distance matrix holds non-negative entries, as the
haversine-based construction in the source guarantees). -/
theorem claim_C5 (individual : List Int) (env : Environment) (s : ℚ)
    (hmat : ∀ row ∈ env.distance_matrix, ∀ v ∈ row, 0 ≤ v)
    (hok : fitness_func individual env = .ok s) : 0 ≤ s := by
  obtain ⟨decoded, dp, _, hdp, hs⟩ := fitness_func_ok_inv individual env s hok
  rw [hs]
  exact add_nonneg (add_nonneg (weight_penalty_nonneg decoded)
    (pallet_penalty_nonneg decoded))
    (sumDistances_nonneg env hmat (sort_values decoded) none dp hdp)

unseal Rat.add Rat.sub Rat.mul Rat.inv in
theorem claim_C5_witness : (0 : ℚ) ≤ 44995 :=
  claim_C5 [0, 0] envEx 44995 (by decide) (by decide)


/-! ### Engine invariants (modelled from the specification) -/

/-- Mutation never widens or shrinks an individual. -/
theorem mutateGenes_length (cfg : GAConfig) :
    ∀ (gs : List Int) (s : Nat), (mutateGenes cfg gs s).1.length = gs.length := by
  intro gs
  induction gs with
  | nil =>
    intro s
    rfl
  | cons g gs2 ih =>
    intro s
    simp only [mutateGenes, List.length_cons]
    rw [ih]

/-- Crossover preserves the first parent's length exactly. -/
theorem crossGenes_length : ∀ (a b : List Int) (s : Nat),
    (crossGenes a b s).1.length = a.length := by
  intro a
  induction a with
  | nil =>
    intro b s
    rfl
  | cons x as ih =>
    intro b s
    cases b with
    | nil => rfl
    | cons y bs =>
      simp only [crossGenes, List.length_cons]
      rw [ih]

theorem crossover_length (cfg : GAConfig) (a b : List Int) (s : Nat) :
    (crossover cfg a b s).1.length = a.length := by
  simp only [crossover]
  split
  · exact crossGenes_length a b _
  · rfl

/-- A random pick from a nonempty population is a member. -/
theorem pickRandom_mem (pop : List (List Int)) (s : Nat) (h : pop ≠ []) :
    (pickRandom pop s).1 ∈ pop := by
  cases pop with
  | nil => exact absurd rfl h
  | cons p rest =>
    simp only [pickRandom]
    rcases hg : (p :: rest).get? ((randBelow s (p :: rest).length).1) with _ | x
    · exact List.mem_cons_self p rest
    · exact List.get?_mem hg

/-- Tournament selection returns a member of a nonempty population. -/
theorem tournament_mem (f : List Int → ℚ) (pop : List (List Int)) (h : pop ≠ []) :
    ∀ (k s : Nat), (tournament f pop k s).1 ∈ pop := by
  intro k
  induction k with
  | zero =>
    intro s
    exact pickRandom_mem pop s h
  | succ k2 ih =>
    intro s
    simp only [tournament]
    split
    · exact pickRandom_mem pop _ h
    · exact ih _

/-- The offspring fill produces exactly the requested number of children. -/
theorem fillOffspring_length (cfg : GAConfig) (f : List Int → ℚ)
    (pop : List (List Int)) :
    ∀ (m s : Nat), (fillOffspring cfg f pop m s).1.length = m := by
  intro m
  induction m with
  | zero =>
    intro s
    rfl
  | succ m2 ih =>
    intro s
    simp only [fillOffspring, List.length_cons]
    rw [ih]

/-- One offspring has the population's common individual length. -/
theorem makeChild_length (cfg : GAConfig) (f : List Int → ℚ)
    (pop : List (List Int)) (n s : Nat) (hpop : pop ≠ [])
    (hlen : ∀ i ∈ pop, i.length = n) :
    (makeChild cfg f pop s).1.length = n := by
  simp only [makeChild]
  rw [mutateGenes_length, crossover_length]
  exact hlen _ (tournament_mem f pop hpop _ _)

/-- Every produced child has the population's common individual length. -/
theorem fillOffspring_mem_length (cfg : GAConfig) (f : List Int → ℚ)
    (pop : List (List Int)) (n : Nat) (hpop : pop ≠ [])
    (hlen : ∀ i ∈ pop, i.length = n) :
    ∀ (m s : Nat), ∀ i ∈ (fillOffspring cfg f pop m s).1, i.length = n := by
  intro m
  induction m with
  | zero =>
    intro s i hi
    cases hi
  | succ m2 ih =>
    intro s i hi
    simp only [fillOffspring] at hi
    rcases List.mem_cons.mp hi with hi | hi
    · rw [hi]
      exact makeChild_length cfg f pop n s hpop hlen
    · exact ih _ i hi

/-- `insertScored` inserts, up to permutation. -/
theorem insertScored_perm (x : List Int × ℚ) :
    ∀ l : List (List Int × ℚ), (insertScored x l).Perm (x :: l) := by
  intro l
  induction l with
  | nil => exact List.Perm.refl _
  | cons y ys ih =>
    simp only [insertScored]
    split
    · exact List.Perm.refl _
    · exact (ih.cons y).trans (List.Perm.swap x y ys)

/-- Sorting by score is a permutation. -/
theorem sortScored_perm : ∀ l : List (List Int × ℚ), (sortScored l).Perm l := by
  intro l
  induction l with
  | nil => exact List.Perm.refl _
  | cons x xs ih =>
    exact (insertScored_perm x (sortScored xs)).trans (ih.cons x)

/-- `insertScored` preserves ascending scores. -/
theorem insertScored_pairwise (x : List Int × ℚ) :
    ∀ l : List (List Int × ℚ), l.Pairwise (fun a b => a.2 ≤ b.2) →
    (insertScored x l).Pairwise (fun a b => a.2 ≤ b.2) := by
  intro l
  induction l with
  | nil =>
    intro _
    exact List.pairwise_singleton _ _
  | cons y ys ih =>
    intro hp
    simp only [insertScored]
    split
    · rename_i hxy
      refine List.Pairwise.cons ?_ hp
      intro b hb
      rcases List.mem_cons.mp hb with hb | hb
      · subst hb
        exact hxy
      · exact le_trans hxy ((List.pairwise_cons.mp hp).1 b hb)
    · rename_i hxy
      have hyx : y.2 ≤ x.2 := le_of_not_le hxy
      refine List.Pairwise.cons ?_ (ih (List.pairwise_cons.mp hp).2)
      intro b hb
      rcases List.mem_cons.mp ((insertScored_perm x ys).mem_iff.mp hb) with hb2 | hb2
      · subst hb2
        exact hyx
      · exact (List.pairwise_cons.mp hp).1 b hb2

/-- The score-sorted list is ascending in scores. -/
theorem sortScored_pairwise :
    ∀ l : List (List Int × ℚ), (sortScored l).Pairwise (fun a b => a.2 ≤ b.2) := by
  intro l
  induction l with
  | nil => exact List.Pairwise.nil
  | cons x xs ih => exact insertScored_pairwise x (sortScored xs) ih

theorem foldl_min_le_init (f : List Int → ℚ) :
    ∀ (l : List (List Int)) (acc : ℚ),
    l.foldl (fun acc j => min acc (f j)) acc ≤ acc := by
  intro l
  induction l with
  | nil =>
    intro acc
    exact le_refl acc
  | cons x xs ih =>
    intro acc
    exact le_trans (ih (min acc (f x))) (min_le_left _ _)

theorem foldl_min_le_mem (f : List Int → ℚ) :
    ∀ (l : List (List Int)) (acc : ℚ) (j : List Int), j ∈ l →
    l.foldl (fun acc j => min acc (f j)) acc ≤ f j := by
  intro l
  induction l with
  | nil =>
    intro acc j hj
    cases hj
  | cons x xs ih =>
    intro acc j hj
    rcases List.mem_cons.mp hj with hj | hj
    · subst hj
      exact le_trans (foldl_min_le_init f xs _) (min_le_right _ _)
    · exact ih _ j hj

theorem foldl_min_cases (f : List Int → ℚ) :
    ∀ (l : List (List Int)) (acc : ℚ),
    l.foldl (fun acc j => min acc (f j)) acc = acc ∨
    ∃ j ∈ l, l.foldl (fun acc j => min acc (f j)) acc = f j := by
  intro l
  induction l with
  | nil =>
    intro acc
    exact Or.inl rfl
  | cons x xs ih =>
    intro acc
    rcases ih (min acc (f x)) with h | ⟨j, hj, hjeq⟩
    · rcases le_total acc (f x) with hle | hle
      · left
        rw [List.foldl_cons, h]
        exact min_eq_left hle
      · right
        refine ⟨x, List.mem_cons_self x xs, ?_⟩
        rw [List.foldl_cons, h]
        exact min_eq_right hle
    · right
      refine ⟨j, List.mem_cons_of_mem x hj, ?_⟩
      rw [List.foldl_cons]
      exact hjeq

/-- The best score is a lower bound on every member's score. -/
theorem bestScore_le_of_mem (f : List Int → ℚ) (pop : List (List Int))
    (i : List Int) (hi : i ∈ pop) : bestScore f pop ≤ f i := by
  cases pop with
  | nil => cases hi
  | cons x xs =>
    simp only [bestScore]
    rcases List.mem_cons.mp hi with hi | hi
    · subst hi
      exact foldl_min_le_init f xs (f i)
    · exact foldl_min_le_mem f xs (f x) i hi

/-- The best score of a nonempty population is attained by a member. -/
theorem bestScore_mem (f : List Int → ℚ) (pop : List (List Int)) (h : pop ≠ []) :
    ∃ i ∈ pop, bestScore f pop = f i := by
  cases pop with
  | nil => exact absurd rfl h
  | cons x xs =>
    simp only [bestScore]
    rcases foldl_min_cases f xs (f x) with hc | ⟨j, hj, hjeq⟩
    · exact ⟨x, List.mem_cons_self x xs, hc⟩
    · exact ⟨j, List.mem_cons_of_mem x hj, hjeq⟩

/-- The next generation again holds exactly `populationSize` individuals. -/
theorem nextPopulation_length (cfg : GAConfig) (f : List Int → ℚ)
    (pop : List (List Int)) (s : Nat)
    (hP : pop.length = cfg.populationSize) :
    (nextPopulation cfg f pop s).1.length = cfg.populationSize := by
  simp only [nextPopulation]
  rw [List.length_append, fillOffspring_length, List.length_map, List.length_take,
    (sortScored_perm _).length_eq, List.length_map, hP]
  omega

/-- Every member of the next generation keeps the common individual length. -/
theorem nextPopulation_mem_length (cfg : GAConfig) (f : List Int → ℚ)
    (pop : List (List Int)) (s : Nat) (n : Nat)
    (hpop : pop ≠ []) (hlen : ∀ i ∈ pop, i.length = n) :
    ∀ i ∈ (nextPopulation cfg f pop s).1, i.length = n := by
  intro i hi
  simp only [nextPopulation] at hi
  rcases List.mem_append.mp hi with hi | hi
  · rcases List.mem_map.mp hi with ⟨pr, hpr, hfst⟩
    have hpr3 : pr ∈ pop.map fun j => (j, f j) :=
      (sortScored_perm _).mem_iff.mp (List.mem_of_mem_take hpr)
    rcases List.mem_map.mp hpr3 with ⟨j, hj, hji⟩
    rw [← hfst, ← hji]
    exact hlen j hj
  · exact fillOffspring_mem_length cfg f pop n hpop hlen _ _ i hi

theorem perturbedSeeds_length (cfg : GAConfig) (seed : List Int) :
    ∀ (m s : Nat), (perturbedSeeds cfg seed m s).1.length = m := by
  intro m
  induction m with
  | zero =>
    intro s
    rfl
  | succ m2 ih =>
    intro s
    simp only [perturbedSeeds, List.length_cons]
    rw [ih]

theorem perturbedSeeds_mem_length (cfg : GAConfig) (seed : List Int) :
    ∀ (m s : Nat), ∀ i ∈ (perturbedSeeds cfg seed m s).1,
    i.length = seed.length := by
  intro m
  induction m with
  | zero =>
    intro s i hi
    cases hi
  | succ m2 ih =>
    intro s i hi
    simp only [perturbedSeeds] at hi
    rcases List.mem_cons.mp hi with hi | hi
    · subst hi
      exact mutateGenes_length cfg seed s
    · exact ih _ i hi

theorem initialPopulation_length (cfg : GAConfig) (seed : List Int) (s : Nat)
    (h : 1 ≤ cfg.populationSize) :
    (initialPopulation cfg seed s).1.length = cfg.populationSize := by
  simp only [initialPopulation, List.length_cons, perturbedSeeds_length]
  omega

theorem initialPopulation_mem_length (cfg : GAConfig) (seed : List Int) (s : Nat) :
    ∀ i ∈ (initialPopulation cfg seed s).1, i.length = seed.length := by
  intro i hi
  simp only [initialPopulation] at hi
  rcases List.mem_cons.mp hi with hi | hi
  · subst hi
    rfl
  · exact perturbedSeeds_mem_length cfg seed _ _ i hi

/-- The run-wide invariant: with a validated configuration, every generation
holds exactly `populationSize` individuals, each of the seed's length. -/
theorem populationAt_spec (cfg : GAConfig) (f : List Int → ℚ) (seed : List Int)
    (s0 : Nat) (hP : 2 ≤ cfg.populationSize) :
    ∀ g : Nat, (populationAt cfg f seed s0 g).1.length = cfg.populationSize ∧
      ∀ i ∈ (populationAt cfg f seed s0 g).1, i.length = seed.length := by
  intro g
  induction g with
  | zero =>
    exact ⟨initialPopulation_length cfg seed s0 (by omega),
      initialPopulation_mem_length cfg seed s0⟩
  | succ g2 ih =>
    obtain ⟨ihl, ihm⟩ := ih
    have hne : (populationAt cfg f seed s0 g2).1 ≠ [] := by
      intro hc
      rw [hc] at ihl
      simp only [List.length_nil] at ihl
      omega
    exact ⟨nextPopulation_length cfg f _ _ ihl,
      nextPopulation_mem_length cfg f _ _ seed.length hne ihm⟩

/-- A generation of a validated run is never empty. -/
theorem populationAt_ne_nil (cfg : GAConfig) (f : List Int → ℚ) (seed : List Int)
    (s0 : Nat) (hP : 2 ≤ cfg.populationSize) (g : Nat) :
    (populationAt cfg f seed s0 g).1 ≠ [] := by
  intro hc
  have := (populationAt_spec cfg f seed s0 hP g).1
  rw [hc] at this
  simp only [List.length_nil] at this
  omega

theorem foldl_sel_mem (f : List Int → ℚ) :
    ∀ (l : List (List Int)) (acc : List Int),
    l.foldl (fun acc j => if f j < f acc then j else acc) acc = acc ∨
    l.foldl (fun acc j => if f j < f acc then j else acc) acc ∈ l := by
  intro l
  induction l with
  | nil =>
    intro acc
    exact Or.inl rfl
  | cons x xs ih =>
    intro acc
    rw [List.foldl_cons]
    rcases ih (if f x < f acc then x else acc) with h | h
    · rw [h]
      split
      · exact Or.inr (List.mem_cons_self x xs)
      · exact Or.inl rfl
    · exact Or.inr (List.mem_cons_of_mem x h)

/-- The best individual of a nonempty population is a member. -/
theorem bestIndividual_mem (f : List Int → ℚ) (pop : List (List Int))
    (h : pop ≠ []) : bestIndividual f pop ∈ pop := by
  cases pop with
  | nil => exact absurd rfl h
  | cons x xs =>
    simp only [bestIndividual]
    rcases foldl_sel_mem f xs x with hc | hc
    · rw [hc]
      exact List.mem_cons_self x xs
    · exact List.mem_cons_of_mem x hc

/-- The best individual tracked across generations keeps the seed's length. -/
theorem runBest_length (cfg : GAConfig) (f : List Int → ℚ) (seed : List Int)
    (s0 : Nat) (hP : 2 ≤ cfg.populationSize) :
    ∀ g : Nat, (runBest cfg f seed s0 g).length = seed.length := by
  intro g
  induction g with
  | zero =>
    simp only [runBest]
    exact (populationAt_spec cfg f seed s0 hP 0).2 _
      (bestIndividual_mem f _ (populationAt_ne_nil cfg f seed s0 hP 0))
  | succ g2 ih =>
    simp only [runBest]
    split
    · exact (populationAt_spec cfg f seed s0 hP (g2 + 1)).2 _
        (bestIndividual_mem f _ (populationAt_ne_nil cfg f seed s0 hP (g2 + 1)))
    · exact ih

/-- C8 (modelled from the spec): every individual produced at any generation,
and the best individual returned by `run()`, has length equal to the number of
demand records in the environment, given the validated configuration
(`population_size ≥ 2`, seed length = record count). -/
theorem claim_C8 (cfg : GAConfig) (f : List Int → ℚ) (env : Environment)
    (seed : List Int) (s0 g : Nat)
    (hP : 2 ≤ cfg.populationSize)
    (hseed : seed.length = env.df.length) :
    (∀ ind ∈ (populationAt cfg f seed s0 g).1, ind.length = env.df.length) ∧
    (runGA cfg f seed s0).length = env.df.length := by
  constructor
  · intro ind hind
    rw [← hseed]
    exact (populationAt_spec cfg f seed s0 hP g).2 ind hind
  · rw [← hseed]
    exact runBest_length cfg f seed s0 hP cfg.nGenerations

theorem claim_C8_witness :
    (∀ ind ∈ (populationAt cfgEx (fun _ => 0) [0, 0] 7 3).1,
      ind.length = envEx.df.length) ∧
    (runGA cfgEx (fun _ => 0) [0, 0] 7).length = envEx.df.length :=
  claim_C8 cfgEx (fun _ => 0) envEx [0, 0] 7 3 (by decide) (by decide)

/-- One elitism step: the top-scoring individual is copied unchanged into the
next generation, so the next generation's best score is no worse. -/
theorem nextPopulation_best_le (cfg : GAConfig) (f : List Int → ℚ)
    (pop : List (List Int)) (s : Nat)
    (hpop : pop ≠ []) (helit : 1 ≤ cfg.elitismCount) :
    bestScore f (nextPopulation cfg f pop s).1 ≤ bestScore f pop := by
  have hss : sortScored (pop.map fun i => (i, f i)) ≠ [] := by
    intro hc
    have hlen := (sortScored_perm (pop.map fun i => (i, f i))).length_eq
    rw [hc] at hlen
    simp only [List.length_nil, List.length_map] at hlen
    exact hpop (List.length_eq_zero.mp hlen.symm)
  obtain ⟨m, rest, hm⟩ : ∃ m rest,
      sortScored (pop.map fun i => (i, f i)) = m :: rest := by
    rcases hss2 : sortScored (pop.map fun i => (i, f i)) with _ | ⟨m, rest⟩
    · exact absurd hss2 hss
    · exact ⟨m, rest, rfl⟩
  have hmin : ∀ pr ∈ sortScored (pop.map fun i => (i, f i)), m.2 ≤ pr.2 := by
    intro pr hpr
    rw [hm] at hpr
    rcases List.mem_cons.mp hpr with hpr | hpr
    · rw [hpr]
    · have hp := sortScored_pairwise (pop.map fun i => (i, f i))
      rw [hm] at hp
      exact (List.pairwise_cons.mp hp).1 pr hpr
  have hmem : m ∈ pop.map fun i => (i, f i) := by
    refine (sortScored_perm _).mem_iff.mp ?_
    rw [hm]
    exact List.mem_cons_self m rest
  obtain ⟨j, hj, hjm⟩ := List.mem_map.mp hmem
  have hin : m.1 ∈ (nextPopulation cfg f pop s).1 := by
    simp only [nextPopulation]
    refine List.mem_append.mpr (Or.inl ?_)
    refine List.mem_map.mpr ⟨m, ?_, rfl⟩
    rw [hm]
    obtain ⟨e2, he⟩ := Nat.exists_eq_add_of_le helit
    rw [he, Nat.add_comm 1 e2, List.take_succ_cons]
    exact List.mem_cons_self m _
  have h2 : f m.1 = m.2 := by
    rw [← hjm]
  obtain ⟨i0, hi0, hbest⟩ := bestScore_mem f pop hpop
  have h3 : m.2 ≤ f i0 := by
    refine hmin (i0, f i0) ?_
    exact (sortScored_perm _).mem_iff.mpr (List.mem_map.mpr ⟨i0, hi0, rfl⟩)
  rw [hbest]
  calc bestScore f (nextPopulation cfg f pop s).1 ≤ f m.1 :=
        bestScore_le_of_mem f _ m.1 hin
    _ = m.2 := h2
    _ ≤ f i0 := h3

/-- Elitism makes the per-generation best score non-increasing step by step. -/
theorem populationAt_best_mono (cfg : GAConfig) (f : List Int → ℚ)
    (seed : List Int) (s0 : Nat)
    (hP : 2 ≤ cfg.populationSize) (helit : 1 ≤ cfg.elitismCount) (g : Nat) :
    bestScore f (populationAt cfg f seed s0 (g + 1)).1 ≤
      bestScore f (populationAt cfg f seed s0 g).1 :=
  nextPopulation_best_le cfg f _ _ (populationAt_ne_nil cfg f seed s0 hP g) helit

/-- C9 (modelled from the spec): across a run with a validated configuration
and at least one elite, both the per-generation best score and the recorded
best-so-far score are monotonically non-increasing — elitism copies the top
individuals unchanged into each next generation. -/
theorem claim_C9 (cfg : GAConfig) (f : List Int → ℚ) (seed : List Int)
    (s0 g1 g2 : Nat)
    (hP : 2 ≤ cfg.populationSize) (helit : 1 ≤ cfg.elitismCount)
    (hg : g1 ≤ g2) :
    bestScore f (populationAt cfg f seed s0 g2).1 ≤
      bestScore f (populationAt cfg f seed s0 g1).1 ∧
    bestSoFar cfg f seed s0 g2 ≤ bestSoFar cfg f seed s0 g1 := by
  constructor
  · induction g2, hg using Nat.le_induction with
    | base => exact le_refl _
    | succ n hn ih =>
      exact le_trans (populationAt_best_mono cfg f seed s0 hP helit n) ih
  · induction g2, hg using Nat.le_induction with
    | base => exact le_refl _
    | succ n hn ih =>
      exact le_trans (min_le_left _ _) ih

theorem claim_C9_witness :
    bestScore (fun _ => 0) (populationAt cfgEx (fun _ => 0) [0, 0] 7 3).1 ≤
      bestScore (fun _ => 0) (populationAt cfgEx (fun _ => 0) [0, 0] 7 1).1 ∧
    bestSoFar cfgEx (fun _ => 0) [0, 0] 7 3 ≤
      bestSoFar cfgEx (fun _ => 0) [0, 0] 7 1 :=
  claim_C9 cfgEx (fun _ => 0) [0, 0] 7 1 3 (by decide) (by decide) (by decide)

end PyordsVrp
